import Mathlib

/-!
Verification of the CASM canonical-form engine (`casm/clex/HasCanonicalForm_impl.hh`)
and the deduplicated enumeration pipeline
(`casm/app/enum/enumerate_configurations_impl.hh`) against their specification.

The engine operates on objects of a type `α` acted on by permutations of a type
`σ`.  `copy_apply a x` is CASM's free function `copy_apply(A, config)` (apply
the permutation `A` to the object `x`, producing a new object); `lt` is the
strict order used by the `derived().less()` comparator (unary use: `less(A)` is
`lt x (copy_apply A x)`; binary use: `less(A, B)` is
`lt (copy_apply A x) (copy_apply B x)`); `beq` is the equality test of
`derived().equal_to()` (`equal_to(A)` is `beq (copy_apply A x) x`).

Iterator ranges `[begin, end)` are embedded as the list of iterator values of
the range together with the value `e` of the `end` iterator itself (in CASM the
iterator type `PermuteIteratorIt` is `PermuteIterator`, so `end` is itself a
permutation value; `std::max_element` returns it when the range is empty).
-/

namespace CASM

/-- std::none_of over a range: no element satisfies the predicate. -/
def none_of {σ : Type} (p : σ → Bool) (range : List σ) : Bool :=
  !(range.any p)

/-- Inner loop of std::max_element: `cur` is the current largest element;
each next element `b` replaces it exactly when `comp cur b` holds. -/
def max_run {σ : Type} (comp : σ → σ → Bool) : σ → List σ → σ
  | cur, [] => cur
  | cur, b :: rest => max_run comp (if comp cur b then b else cur) rest

/-- std::max_element over the range `[begin, end)`: returns the end iterator
value `e` when the range is empty, otherwise the first maximal element. -/
def max_element {σ : Type} (comp : σ → σ → Bool) (range : List σ) (e : σ) : σ :=
  match range with
  | [] => e
  | a :: rest => max_run comp a rest

/-- ConfigCanonicalForm::is_canonical(begin, end)
(HasCanonicalForm_impl.hh:182-186):
`std::none_of(begin, end, derived().less())`, with `less` used as the unary
predicate `less(A) = (x < copy_apply(A, x))`. -/
def is_canonical {σ α : Type} (copy_apply : σ → α → α) (lt : α → α → Bool)
    (x : α) (range : List σ) : Bool :=
  none_of (fun a => lt x (copy_apply a x)) range

/-- ConfigCanonicalForm::to_canonical(begin, end)
(HasCanonicalForm_impl.hh:195-199):
`std::max_element(begin, end, derived().less())`, with `less` used as the
binary comparator on permutations induced by applying them to `x`. -/
def to_canonical {σ α : Type} (copy_apply : σ → α → α) (lt : α → α → Bool)
    (x : α) (range : List σ) (e : σ) : σ :=
  max_element (fun a b => lt (copy_apply a x) (copy_apply b x)) range e

/-- ConfigCanonicalForm::canonical_form(begin, end)
(HasCanonicalForm_impl.hh:188-193):
`copy_apply(to_canonical(begin, end), derived())`. -/
def canonical_form {σ α : Type} (copy_apply : σ → α → α) (lt : α → α → Bool)
    (x : α) (range : List σ) (e : σ) : α :=
  copy_apply (to_canonical copy_apply lt x range e) x

/-- ConfigCanonicalForm::from_canonical(begin, end)
(HasCanonicalForm_impl.hh:201-205):
`to_canonical(begin, end).inverse()`. -/
def from_canonical {σ α : Type} (inv : σ → σ) (copy_apply : σ → α → α)
    (lt : α → α → Bool) (x : α) (range : List σ) (e : σ) : σ :=
  inv (to_canonical copy_apply lt x range e)

/-- ConfigCanonicalForm::invariant_subgroup(begin, end)
(HasCanonicalForm_impl.hh:207-215):
`std::copy_if(begin, end, std::back_inserter(sub_grp), derived().equal_to())`. -/
def invariant_subgroup {σ α : Type} (copy_apply : σ → α → α)
    (beq : α → α → Bool) (x : α) (range : List σ) : List σ :=
  range.filter (fun a => beq (copy_apply a x) x)

/-- The orbit of `x` under the actions of `range`:
the list `\x7b copy_apply a x : a in range \x7d` in enumeration order. -/
def orbit {σ α : Type} (copy_apply : σ → α → α) (x : α) (range : List σ) :
    List α :=
  range.map (fun a => copy_apply a x)

end CASM

namespace CASM

/-- C1: `is_canonical(object, actions)` is true iff no action in the range,
applied to the object, yields a strictly greater object under `less` —
equivalently, the object is a maximal element of its orbit. -/
theorem is_canonical_iff_maximal {σ α : Type} (copy_apply : σ → α → α)
    (lt : α → α → Bool) (x : α) (range : List σ) :
    is_canonical copy_apply lt x range = true ↔
      ((∀ a ∈ range, lt x (copy_apply a x) = false) ∧
        ∀ y ∈ orbit copy_apply x range, lt x y = false) := by
  constructor
  · intro h
    have h' : ∀ a ∈ range, lt x (copy_apply a x) = false := by
      intro a ha
      by_contra hcon
      have : lt x (copy_apply a x) = true := by
        cases hlt : lt x (copy_apply a x)
        · exact absurd hlt hcon
        · rfl
      have : range.any (fun a => lt x (copy_apply a x)) = true :=
        List.any_eq_true.mpr ⟨a, ha, this⟩
      simp [is_canonical, none_of, this] at h
    refine ⟨h', ?_⟩
    intro y hy
    rcases List.mem_map.mp hy with ⟨a, ha, rfl⟩
    exact h' a ha
  · intro h
    simp only [is_canonical, none_of, Bool.not_eq_true']
    rw [List.any_eq_false]
    intro a ha
    simp [h.1 a ha]

/-- C1 witness: a concrete evaluation of `is_canonical` matching the
maximality characterization, on integer objects acted on by shifts. -/
theorem is_canonical_iff_maximal_witness :
    is_canonical (fun (a x : Int) => a + x) (fun u v => decide (u < v))
        (0 : Int) [0, -1, -2] = true ∧
      ((∀ a ∈ [(0 : Int), -1, -2],
          decide ((0 : Int) < a + 0) = false) ∧
        ∀ y ∈ orbit (fun (a x : Int) => a + x) (0 : Int) [0, -1, -2],
          decide ((0 : Int) < y) = false) := by
  refine ⟨by decide, ?_⟩
  exact (is_canonical_iff_maximal (fun (a x : Int) => a + x)
    (fun u v => decide (u < v)) (0 : Int) [0, -1, -2]).mp (by decide)

/-- Concrete action used by witnesses: an integer shift, applied to an
integer object. -/
def shift_action (a x : Int) : Int := a + x

/-- Concrete strict total order on integer objects used by witnesses. -/
def int_lt (u v : Int) : Bool := decide (u < v)

/-- Characterization of std::max_element's inner loop for a comparator that
is a strict weak ordering: the result is the first maximal element of
`cur :: l` — every element before it is strictly smaller, and no element of
the range is strictly greater. -/
theorem max_run_split {σ : Type} (comp : σ → σ → Bool)
    (hirr : ∀ u, comp u u = false)
    (htr : ∀ u v w, comp u v = true → comp v w = true → comp u w = true)
    (hng : ∀ u v w, comp u v = false → comp v w = false → comp u w = false) :
    ∀ (l : List σ) (cur : σ), ∃ l1 l2,
      cur :: l = l1 ++ (max_run comp cur l) :: l2 ∧
        (∀ b ∈ l1, comp b (max_run comp cur l) = true) ∧
        (∀ b ∈ cur :: l, comp (max_run comp cur l) b = false) := by
  intro l
  induction l with
  | nil =>
    intro cur
    refine ⟨[], [], by simp [max_run], ?_, ?_⟩
    · intro b hb
      exact absurd hb (List.not_mem_nil b)
    · intro b hb
      have hbc : b = cur := List.mem_singleton.mp hb
      subst hbc
      simpa [max_run] using hirr b
  | cons b rest ih =>
    intro cur
    by_cases hc : comp cur b = true
    · have hred : max_run comp cur (b :: rest) = max_run comp b rest := by
        simp [max_run, hc]
      obtain ⟨l1, l2, heq, h1, h2⟩ := ih b
      refine ⟨cur :: l1, l2, ?_, ?_, ?_⟩
      · rw [hred]
        simpa using congrArg (List.cons cur) heq
      · intro c hcmem
        rw [hred]
        rcases List.mem_cons.mp hcmem with rfl | hcl
        · rcases l1 with _ | ⟨hd, tl⟩
          · have hb : b = max_run comp b rest ∧ rest = l2 := by
              simpa using heq
            rw [← hb.1]
            exact hc
          · have hb : b = hd ∧ rest = tl ++ (max_run comp b rest) :: l2 := by
              simpa using heq
            have hhd : comp hd (max_run comp b rest) = true :=
              h1 hd (List.mem_cons_self hd tl)
            rw [← hb.1] at hhd
            exact htr c b (max_run comp b rest) hc hhd
        · exact h1 c hcl
      · intro c hcmem
        rw [hred]
        rcases List.mem_cons.mp hcmem with rfl | hcl
        · have hrb : comp (max_run comp b rest) b = false :=
            h2 b (List.mem_cons_self b rest)
          cases hrc : comp (max_run comp b rest) c
          · rfl
          · have : comp (max_run comp b rest) b = true :=
              htr (max_run comp b rest) c b hrc hc
            rw [this] at hrb
            exact hrb
        · exact h2 c hcl
    · have hcf : comp cur b = false := by
        cases h : comp cur b
        · rfl
        · exact absurd h hc
      have hred : max_run comp cur (b :: rest) = max_run comp cur rest := by
        simp [max_run, hcf]
      obtain ⟨l1, l2, heq, h1, h2⟩ := ih cur
      rcases l1 with _ | ⟨hd, tl⟩
      · have hb : cur = max_run comp cur rest ∧ rest = l2 := by
          simpa using heq
        refine ⟨[], b :: rest, ?_, ?_, ?_⟩
        · rw [hred, ← hb.1]
          simp
        · intro c hcl
          exact absurd hcl (List.not_mem_nil c)
        · intro c hcmem
          rw [hred]
          rcases List.mem_cons.mp hcmem with rfl | hcl
          · exact h2 c (List.mem_cons_self c rest)
          · rcases List.mem_cons.mp hcl with rfl | hcl2
            · rw [← hb.1]
              exact hcf
            · exact h2 c (List.mem_cons_of_mem cur hcl2)
      · have hb : cur = hd ∧ rest = tl ++ (max_run comp cur rest) :: l2 := by
          simpa using heq
        have hcur_r : comp cur (max_run comp cur rest) = true := by
          have hhd := h1 hd (List.mem_cons_self hd tl)
          rw [← hb.1] at hhd
          exact hhd
        have hbr : comp b (max_run comp cur rest) = true := by
          cases hbr' : comp b (max_run comp cur rest)
          · have : comp cur (max_run comp cur rest) = false :=
              hng cur b (max_run comp cur rest) hcf hbr'
            rw [this] at hcur_r
            exact absurd hcur_r (by simp)
          · rfl
        have hrb : comp (max_run comp cur rest) b = false := by
          cases hrb' : comp (max_run comp cur rest) b
          · rfl
          · have : comp b b = true :=
              htr b (max_run comp cur rest) b hbr hrb'
            rw [hirr b] at this
            exact absurd this (by simp)
        refine ⟨cur :: b :: tl, l2, ?_, ?_, ?_⟩
        · rw [hred]
          conv_lhs => rw [hb.2]
          simp
        · intro c hcmem
          rw [hred]
          rcases List.mem_cons.mp hcmem with rfl | hcl
          · exact hcur_r
          · rcases List.mem_cons.mp hcl with rfl | hcl2
            · exact hbr
            · exact h1 c (List.mem_cons_of_mem hd hcl2)
        · intro c hcmem
          rw [hred]
          rcases List.mem_cons.mp hcmem with rfl | hcl
          · exact h2 c (List.mem_cons_self c rest)
          · rcases List.mem_cons.mp hcl with rfl | hcl2
            · exact hrb
            · exact h2 c (List.mem_cons_of_mem cur hcl2)

/-- C2: for a non-empty action range, and `less` a strict weak order on the
objects, applying the action returned by `to_canonical` to the object yields
exactly `canonical_form`, and the selected action is the one found by the
linear `max_element` scan of the orbit under `less`: it belongs to the range,
no action of the range maps the object strictly above it, and every action
enumerated before it maps the object strictly below it (first maximal element
wins). -/
theorem to_canonical_round_trip_first_max {σ α : Type}
    (copy_apply : σ → α → α) (lt : α → α → Bool) (x : α) (range : List σ)
    (e : σ) (hne : range ≠ [])
    (hirr : ∀ u : α, lt u u = false)
    (htr : ∀ u v w : α, lt u v = true → lt v w = true → lt u w = true)
    (hng : ∀ u v w : α, lt u v = false → lt v w = false → lt u w = false) :
    canonical_form copy_apply lt x range e =
        copy_apply (to_canonical copy_apply lt x range e) x ∧
      ∃ l1 l2, range = l1 ++ (to_canonical copy_apply lt x range e) :: l2 ∧
        (∀ b ∈ l1, lt (copy_apply b x)
            (copy_apply (to_canonical copy_apply lt x range e) x) = true) ∧
        (∀ b ∈ range, lt (copy_apply (to_canonical copy_apply lt x range e) x)
            (copy_apply b x) = false) := by
  rcases range with _ | ⟨a, rest⟩
  · exact absurd rfl hne
  refine ⟨rfl, ?_⟩
  obtain ⟨l1, l2, heq, h1, h2⟩ :=
    max_run_split (fun u v : σ => lt (copy_apply u x) (copy_apply v x))
      (fun u => hirr (copy_apply u x))
      (fun u v w hu hv => htr (copy_apply u x) (copy_apply v x)
        (copy_apply w x) hu hv)
      (fun u v w hu hv => hng (copy_apply u x) (copy_apply v x)
        (copy_apply w x) hu hv)
      rest a
  exact ⟨l1, l2, heq, h1, h2⟩

/-- C2 witness: integer objects under shift actions, object `0`, range
`[1, 5, 3, 5]` with end iterator `99`: the scan selects the first shift `5`,
the round trip holds, and the first-maximal split is realized. -/
theorem to_canonical_round_trip_first_max_witness :
    canonical_form shift_action int_lt (0 : Int) [1, 5, 3, 5] 99 =
        shift_action (to_canonical shift_action int_lt (0 : Int)
          [1, 5, 3, 5] 99) 0 ∧
      ∃ l1 l2, [(1 : Int), 5, 3, 5] =
          l1 ++ (to_canonical shift_action int_lt (0 : Int)
            [1, 5, 3, 5] 99) :: l2 ∧
        (∀ b ∈ l1, int_lt (shift_action b 0)
            (shift_action (to_canonical shift_action int_lt (0 : Int)
              [1, 5, 3, 5] 99) 0) = true) ∧
        (∀ b ∈ [(1 : Int), 5, 3, 5],
          int_lt (shift_action (to_canonical shift_action int_lt (0 : Int)
              [1, 5, 3, 5] 99) 0) (shift_action b 0) = false) := by
  exact to_canonical_round_trip_first_max shift_action int_lt (0 : Int)
    [1, 5, 3, 5] 99 (by decide)
    (fun u => by simp [int_lt])
    (fun u v w hu hv => by
      simp only [int_lt, decide_eq_true_eq] at hu hv ⊢
      omega)
    (fun u v w hu hv => by
      simp only [int_lt, decide_eq_false_iff_not] at hu hv ⊢
      omega)

/-- C5 counterexample: with an empty action range, `canonical_form` does NOT
return the object unchanged.  `std::max_element` over an empty range returns
the end iterator, so `canonical_form` applies the end iterator's permutation:
here integer objects under shift actions, object `0`, empty range whose end
iterator is the shift `5`, give `canonical_form = 5`, not `0`. -/
theorem canonical_form_empty_range_not_identity :
    canonical_form (fun (a x : Int) => a + x) (fun u v => decide (u < v))
      (0 : Int) [] (5 : Int) ≠ (0 : Int) := by
  decide

/-- C5 (amended): with an empty action range, `is_canonical` is trivially
true, and `canonical_form` returns `copy_apply e x` — the object transformed
by the end iterator's action `e` (which is the unchanged object only when `e`
acts as the identity on `x`). -/
theorem empty_range_behavior {σ α : Type} (copy_apply : σ → α → α)
    (lt : α → α → Bool) (x : α) (e : σ) :
    is_canonical copy_apply lt x ([] : List σ) = true ∧
      canonical_form copy_apply lt x ([] : List σ) e = copy_apply e x := by
  exact ⟨rfl, rfl⟩

/-- C5 amended-theorem witness: concrete evaluation on integer objects under
shift actions with an empty range whose end iterator is the shift 5. -/
theorem empty_range_behavior_witness :
    is_canonical shift_action int_lt (0 : Int) ([] : List Int) = true ∧
      canonical_form shift_action int_lt (0 : Int) ([] : List Int) 5 =
        shift_action 5 0 :=
  empty_range_behavior shift_action int_lt 0 5

/-- C6: `invariant_subgroup(object, actions)` returns exactly the actions of
the range whose application leaves the object equal to itself, as a
subsequence of the range (enumeration order preserved). -/
theorem invariant_subgroup_spec {σ α : Type} (copy_apply : σ → α → α)
    (beq : α → α → Bool) (x : α) (range : List σ) :
    (∀ a, a ∈ invariant_subgroup copy_apply beq x range ↔
        (a ∈ range ∧ beq (copy_apply a x) x = true)) ∧
      List.Sublist (invariant_subgroup copy_apply beq x range) range := by
  constructor
  · intro a
    simp [invariant_subgroup, List.mem_filter]
  · exact List.filter_sublist range

/-- C6 witness: concrete stabilizer computation for integer objects under
shift actions — exactly the zero shifts survive, in order. -/
theorem invariant_subgroup_spec_witness :
    ((3 : Int) ∈ invariant_subgroup (fun (a x : Int) => a + x)
        (fun u v => decide (u = v)) (2 : Int) [0, 3, 0, 1] ↔
      ((3 : Int) ∈ [(0 : Int), 3, 0, 1] ∧
        decide ((3 : Int) + 2 = 2) = true)) ∧
      List.Sublist (invariant_subgroup (fun (a x : Int) => a + x)
        (fun u v => decide (u = v)) (2 : Int) [0, 3, 0, 1])
        [(0 : Int), 3, 0, 1] := by
  exact ⟨(invariant_subgroup_spec (fun (a x : Int) => a + x)
      (fun u v => decide (u = v)) (2 : Int) [0, 3, 0, 1]).1 3,
    (invariant_subgroup_spec (fun (a x : Int) => a + x)
      (fun u v => decide (u = v)) (2 : Int) [0, 3, 0, 1]).2⟩

/-- A supercell, as needed by the local-mode ("Scel") engine: the full range
of permutations consistent with the fixed cell, as a list together with the
value of the past-the-end iterator (PermuteIterator is its own iterator
type). -/
structure Supercell (σ : Type) where
  perms : List σ
  permEnd : σ

/-- CanonicalForm::to_canonical(g, sym_compare)
(HasCanonicalForm_impl.hh:46-55) delegates to CanonicalGenerator
(casm/symmetry/OrbitGeneration, not under src/).  Modelled from the spec:
both modes share the identical max_element skeleton, so the canonicalizing
action is found by the max_element scan over the group's elements, with `e`
the value produced for an empty group. -/
def group_to_canonical {σ α : Type} (copy_apply : σ → α → α)
    (lt : α → α → Bool) (g : List σ) (e : σ) (x : α) : σ :=
  to_canonical copy_apply lt x g e

/-- CanonicalForm::from_canonical(g, sym_compare)
(HasCanonicalForm_impl.hh:57-64):
returns to_canonical(g, sym_compare).inverse(). -/
def group_from_canonical {σ α : Type} (inv : σ → σ) (copy_apply : σ → α → α)
    (lt : α → α → Bool) (g : List σ) (e : σ) (x : α) : σ :=
  inv (group_to_canonical copy_apply lt g e x)

/-- CanonicalForm::is_canonical(scel, begin, end)
(HasCanonicalForm_impl.hh:75-84): constructs ScelIsCanonical f(scel) and
returns f(derived()); the supplied range [begin, end) is not used.
ScelIsCanonical (casm/symmetry/ScelOrbitGeneration, not under src/) is
modelled from the spec: canonicity with respect to the permutations
consistent with the fixed cell. -/
def scel_is_canonical {σ α : Type} (copy_apply : σ → α → α)
    (lt : α → α → Bool) (scel : Supercell σ) (range : List σ) (x : α) :
    Bool :=
  is_canonical copy_apply lt x scel.perms

/-- CanonicalForm::canonical_form(scel, begin, end)
(HasCanonicalForm_impl.hh:86-95): constructs ScelCanonicalGenerator f(scel)
and returns f(derived()); the supplied range [begin, end) is not used.
ScelCanonicalGenerator (not under src/) is modelled from the spec: the
canonical form with respect to the permutations of the fixed cell. -/
def scel_canonical_form {σ α : Type} (copy_apply : σ → α → α)
    (lt : α → α → Bool) (scel : Supercell σ) (range : List σ) (x : α) : α :=
  canonical_form copy_apply lt x scel.perms scel.permEnd

/-- CanonicalForm::to_canonical(scel, begin, end)
(HasCanonicalForm_impl.hh:109-119): constructs ScelCanonicalGenerator
f(scel), runs f(derived()) and returns f.to_canonical(); the supplied range
[begin, end) is not used. -/
def scel_to_canonical {σ α : Type} (copy_apply : σ → α → α)
    (lt : α → α → Bool) (scel : Supercell σ) (range : List σ) (x : α) : σ :=
  to_canonical copy_apply lt x scel.perms scel.permEnd

/-- CanonicalForm::from_canonical(scel, begin, end)
(HasCanonicalForm_impl.hh:121-129): the body evaluates
to_canonical(scel, begin, end).inverse() and discards the result; there is no
return statement, so the function falls off its end and returns no defined
value (undefined behavior in C++).  Embedded as an Option that is none. -/
def scel_from_canonical {σ α : Type} (inv : σ → σ) (copy_apply : σ → α → α)
    (lt : α → α → Bool) (scel : Supercell σ) (range : List σ) (x : α) :
    Option σ :=
  none

/-- C3: the symmetry-group overload and the plain iterator-range overload of
from_canonical do return the inverse of to_canonical, but the
supercell-plus-iterator-range overload returns no value at all (its body
lacks a return statement), so in particular it does not return the inverse of
the action returned by to_canonical: evaluated at integer objects under shift
actions with inverse negation, it yields none, not the inverse. -/
theorem from_canonical_overloads :
    (∀ (σ α : Type) (inv : σ → σ) (copy_apply : σ → α → α)
        (lt : α → α → Bool) (x : α) (range : List σ) (e : σ),
      from_canonical inv copy_apply lt x range e =
        inv (to_canonical copy_apply lt x range e)) ∧
      (∀ (σ α : Type) (inv : σ → σ) (copy_apply : σ → α → α)
          (lt : α → α → Bool) (g : List σ) (e : σ) (x : α),
        group_from_canonical inv copy_apply lt g e x =
          inv (group_to_canonical copy_apply lt g e x)) ∧
      scel_from_canonical (fun a : Int => -a) shift_action int_lt
          ⟨[0, 1], 2⟩ [0] (0 : Int) ≠
        some ((fun a : Int => -a) (scel_to_canonical shift_action int_lt
          ⟨[0, 1], 2⟩ [0] (0 : Int))) := by
  refine ⟨fun σ α inv copy_apply lt x range e => rfl,
    fun σ α inv copy_apply lt g e x => rfl, ?_⟩
  intro h
  exact Option.noConfusion h

/-- C4: the supercell-plus-iterator-range overloads of is_canonical and
canonical_form ignore the supplied range [begin, end) entirely — their result
is the same for any two supplied ranges — and compute with respect to the
cell's full permutation range instead.  Concretely, for integer objects under
shift actions, object 0, a cell whose permutations are the shifts [0, 1], and
the supplied range [0] (the identity shift alone): with respect to the
supplied range the object is canonical and its canonical form is itself, but
the overloads return false and 1. -/
theorem scel_range_overloads_ignore_range :
    (∀ (σ α : Type) (copy_apply : σ → α → α) (lt : α → α → Bool)
        (scel : Supercell σ) (r1 r2 : List σ) (x : α),
      scel_is_canonical copy_apply lt scel r1 x =
          scel_is_canonical copy_apply lt scel r2 x ∧
        scel_canonical_form copy_apply lt scel r1 x =
          scel_canonical_form copy_apply lt scel r2 x) ∧
      scel_is_canonical shift_action int_lt ⟨[0, 1], 2⟩ [0] (0 : Int) =
          false ∧
      is_canonical shift_action int_lt (0 : Int) [0] = true ∧
      scel_canonical_form shift_action int_lt ⟨[0, 1], 2⟩ [0] (0 : Int) =
          1 ∧
      canonical_form shift_action int_lt (0 : Int) [0] (0 : Int) = 0 := by
  refine ⟨fun σ α copy_apply lt scel r1 r2 x => ⟨rfl, rfl⟩, ?_, ?_, ?_, ?_⟩
  · decide
  · decide
  · decide
  · decide

/-- Deduplicating store insert (spec store contract
`insert(value) -> (handle, was_new)`): the store keeps unique values; an
insert of a value already present leaves the store unchanged, otherwise the
value is appended. -/
def dbInsert {β : Type} [DecidableEq β] (db : List β) (v : β) : List β :=
  if v ∈ db then db else db ++ [v]

/-- SupercellCanonicalForm::canonical_form (HasCanonicalForm_impl.hh:241-247):
if the mutable cache m_canonical is unset, it is set to
&*derived().insert().first — Supercell::insert (not under src/) is modelled
from the spec and the repository's test
(200_enumeration_ScelEnum_test.cpp): it registers the supercell in the
supercell database and returns the handle of the stored, deduplicated entry.
Returns (canonical supercell, updated cell-store, updated cache). -/
def supercell_canonical_form {β : Type} [DecidableEq β] (db : List β)
    (cache : Option β) (s : β) : β × List β × Option β :=
  match cache with
  | some c => (c, db, some c)
  | none => (s, dbInsert db s, some s)

/-- C10 counterexample: computing the canonical form of a supercell (cache
unset, supercell 7 on an empty cell-store) changes the contents and size of
the cell-store and mutates the object's cached canonical-form pointer, so
supercell canonicalization is not read-only. -/
theorem supercell_canonical_form_mutates_store :
    ¬ ((supercell_canonical_form ([] : List Int) none 7).2.1 = [] ∧
        (supercell_canonical_form ([] : List Int) none 7).2.2 = none) := by
  decide

/-- C10 (amended): the configuration-level engine touches no store (its
functions are pure in the object and the action range), and supercell
canonical_form leaves the cell-store and the cache unchanged whenever the
cache is already set; but on first call (cache unset) it registers the
supercell in the cell-store — growing it when absent — and sets the mutable
cache. -/
theorem supercell_canonical_form_frame {β : Type} [DecidableEq β]
    (db : List β) (s : β) :
    (∀ c, supercell_canonical_form db (some c) s = (c, db, some c)) ∧
      supercell_canonical_form db none s = (s, dbInsert db s, some s) := by
  exact ⟨fun c => rfl, rfl⟩

/-- C10 amended-theorem witness: concrete evaluation with a set cache (store
untouched) and with an unset cache (store grows by the inserted cell). -/
theorem supercell_canonical_form_frame_witness :
    supercell_canonical_form ([2] : List Int) (some 2) 7 = (2, [2], some 2) ∧
      supercell_canonical_form ([2] : List Int) none 7 =
        (7, dbInsert [2] 7, some 7) := by
  exact ⟨(supercell_canonical_form_frame [2] 7).1 2,
    (supercell_canonical_form_frame [2] 7).2⟩

/-- State of the two linked stores during a pipeline run: volatile (in-memory)
contents of the supercell database and the configuration database, and their
durable (committed) contents. -/
structure Stores (Scel Cfg : Type) where
  scel : List Scel
  config : List Cfg
  scelDurable : List Scel
  configDurable : List Cfg
deriving DecidableEq

/-- Modelled from the spec: make_canonical_and_insert
(casm/database/ConfigDatabaseTools, not under src/): computes the primitive
canonical configuration, registers its supercell in the cell-store, inserts
the configuration into the object-store; when primitive_only is unset and the
non-primitive canonical form differs from the primitive one, registers that
cell and inserts it as well. -/
def make_canonical_and_insert {Scel Cfg : Type} [DecidableEq Scel]
    [DecidableEq Cfg] (cellOf : Cfg → Scel)
    (canonPrim canonNonPrim : Cfg → Cfg) (primitive_only : Bool)
    (st : Stores Scel Cfg) (c : Cfg) : Stores Scel Cfg :=
  let p := canonPrim c
  let st1 : Stores Scel Cfg :=
    { st with scel := dbInsert st.scel (cellOf p),
              config := dbInsert st.config p }
  if primitive_only then st1
  else
    let n := canonNonPrim c
    if n = p then st1
    else
      { st1 with scel := dbInsert st1.scel (cellOf n),
                 config := dbInsert st1.config n }

/-- The filter test of the loop body (enumerate_configurations_impl.hh:92):
`options.filter && !options.filter(configuration)`. -/
def rejected {Cfg : Type} (filter : Option (Cfg → Bool)) (c : Cfg) : Bool :=
  match filter with
  | some f => !(f c)
  | none => false

/-- Loop body of enumerate_configurations for one generated configuration
(enumerate_configurations_impl.hh:85-108), threading
(stores, accepted count, filtered count): a rejected configuration only bumps
the filtered counter; an accepted one is inserted directly when the
enumerator is guaranteed for database insert, and otherwise goes through
make_canonical_and_insert. -/
def process_config {Scel Cfg : Type} [DecidableEq Scel] [DecidableEq Cfg]
    (cellOf : Cfg → Scel) (canonPrim canonNonPrim : Cfg → Cfg)
    (filter : Option (Cfg → Bool)) (primitive_only guaranteed : Bool)
    (acc : Stores Scel Cfg × Nat × Nat) (c : Cfg) :
    Stores Scel Cfg × Nat × Nat :=
  if rejected filter c then (acc.1, acc.2.1, acc.2.2 + 1)
  else if guaranteed then
    ({ acc.1 with config := dbInsert acc.1.config c }, acc.2.1 + 1, acc.2.2)
  else
    (make_canonical_and_insert cellOf canonPrim canonNonPrim primitive_only
        acc.1 c,
      acc.2.1 + 1, acc.2.2)

/-- Per-batch counters as logged at enumerate_configurations_impl.hh:110-113:
accepted count, number of new configurations (num_after - num_before), and
the filtered count. -/
structure BatchReport where
  accepted : Nat
  new_count : Nat
  filtered : Nat
deriving DecidableEq

/-- One batch (enumerate_configurations_impl.hh:79-113): record the
object-store size, fold the loop body over the enumerator's output, and
report the counters. -/
def run_batch {Scel Cfg : Type} [DecidableEq Scel] [DecidableEq Cfg]
    (cellOf : Cfg → Scel) (canonPrim canonNonPrim : Cfg → Cfg)
    (filter : Option (Cfg → Bool)) (primitive_only : Bool)
    (st : Stores Scel Cfg) (cfgs : List Cfg) (guaranteed : Bool) :
    Stores Scel Cfg × BatchReport :=
  let num_before := st.config.length
  let r := cfgs.foldl
    (process_config cellOf canonPrim canonNonPrim filter primitive_only
      guaranteed)
    (st, 0, 0)
  (r.1, ⟨r.2.1, r.1.config.length - num_before, r.2.2⟩)

/-- One iteration of the outer batch loop: construct the enumerator for the
(name, input) pair, run the batch, append its report. -/
def run_batches_step {Scel Cfg ι : Type} [DecidableEq Scel] [DecidableEq Cfg]
    (cellOf : Cfg → Scel) (canonPrim canonNonPrim : Cfg → Cfg)
    (filter : Option (Cfg → Bool)) (primitive_only : Bool)
    (gen : String → ι → List Cfg × Bool)
    (acc : Stores Scel Cfg × List BatchReport) (b : String × ι) :
    Stores Scel Cfg × List BatchReport :=
  let g := gen b.1 b.2
  let r := run_batch cellOf canonPrim canonNonPrim filter primitive_only
    acc.1 g.1 g.2
  (r.1, acc.2 ++ [r.2])

/-- All batches in supplied order, collecting the per-batch reports. -/
def run_batches {Scel Cfg ι : Type} [DecidableEq Scel] [DecidableEq Cfg]
    (cellOf : Cfg → Scel) (canonPrim canonNonPrim : Cfg → Cfg)
    (filter : Option (Cfg → Bool)) (primitive_only : Bool)
    (gen : String → ι → List Cfg × Bool) (st : Stores Scel Cfg)
    (batches : List (String × ι)) : Stores Scel Cfg × List BatchReport :=
  batches.foldl
    (run_batches_step cellOf canonPrim canonNonPrim filter primitive_only gen)
    (st, [])

/-- A commit attempt on one of the two stores. -/
inductive CommitEvent where
  | commitScel : CommitEvent
  | commitConfig : CommitEvent
deriving DecidableEq

/-- Outcome of one pipeline run: run-wide counters (object-store size before
and after), the per-batch reports, the sequence of commit attempts, the final
store state, and whether a commit failure aborted the run. -/
structure RunResult (Scel Cfg : Type) where
  Ninit : Nat
  reports : List BatchReport
  Nfinal : Nat
  events : List CommitEvent
  stores : Stores Scel Cfg
  aborted : Bool
deriving DecidableEq

/-- enumerate_configurations (enumerate_configurations_impl.hh:55-131).  The
generator factory `gen` returns, for every (name, input) pair, the finite
sequence of configurations the constructed enumerator produces together with
the value of is_guaranteed_for_database_insert for that enumerator.  Commit
success is supplied by the oracles scelCommitOk and configCommitOk: a failing
commit throws, aborting the run (aborted = true) after the failing attempt,
so the configuration-database commit is attempted only when the supercell
commit succeeded, and no commit at all is attempted when dry_run is set. -/
def enumerate_configurations {Scel Cfg ι : Type} [DecidableEq Scel]
    [DecidableEq Cfg] (dry_run primitive_only : Bool)
    (filter : Option (Cfg → Bool)) (cellOf : Cfg → Scel)
    (canonPrim canonNonPrim : Cfg → Cfg) (batches : List (String × ι))
    (gen : String → ι → List Cfg × Bool)
    (scelCommitOk configCommitOk : Bool) (st0 : Stores Scel Cfg) :
    RunResult Scel Cfg :=
  let Ninit := st0.config.length
  let br := run_batches cellOf canonPrim canonNonPrim filter primitive_only
    gen st0 batches
  let Nfinal := br.1.config.length
  if dry_run then ⟨Ninit, br.2, Nfinal, [], br.1, false⟩
  else if scelCommitOk = false then
    ⟨Ninit, br.2, Nfinal, [CommitEvent.commitScel], br.1, true⟩
  else
    let st1 : Stores Scel Cfg := { br.1 with scelDurable := br.1.scel }
    if configCommitOk = false then
      ⟨Ninit, br.2, Nfinal,
        [CommitEvent.commitScel, CommitEvent.commitConfig], st1, true⟩
    else
      ⟨Ninit, br.2, Nfinal,
        [CommitEvent.commitScel, CommitEvent.commitConfig],
        { st1 with configDurable := st1.config }, false⟩

/-- Membership in a deduplicating store after an insert. -/
theorem mem_dbInsert {β : Type} [DecidableEq β] (db : List β) (v a : β) :
    a ∈ dbInsert db v ↔ a ∈ db ∨ a = v := by
  by_cases h : v ∈ db
  · simp only [dbInsert, if_pos h]
    constructor
    · exact Or.inl
    · rintro (ha | rfl)
      · exact ha
      · exact h
  · simp [dbInsert, if_neg h]

/-- make_canonical_and_insert never touches the durable store contents. -/
theorem make_canonical_and_insert_durable {Scel Cfg : Type}
    [DecidableEq Scel] [DecidableEq Cfg] (cellOf : Cfg → Scel)
    (cp cn : Cfg → Cfg) (po : Bool) (st : Stores Scel Cfg) (c : Cfg) :
    (make_canonical_and_insert cellOf cp cn po st c).scelDurable =
        st.scelDurable ∧
      (make_canonical_and_insert cellOf cp cn po st c).configDurable =
        st.configDurable := by
  unfold make_canonical_and_insert
  dsimp only
  split
  · exact ⟨rfl, rfl⟩
  · split
    · exact ⟨rfl, rfl⟩
    · exact ⟨rfl, rfl⟩

/-- The loop body never touches the durable store contents. -/
theorem process_config_durable {Scel Cfg : Type} [DecidableEq Scel]
    [DecidableEq Cfg] (cellOf : Cfg → Scel) (cp cn : Cfg → Cfg)
    (filter : Option (Cfg → Bool)) (po g : Bool)
    (acc : Stores Scel Cfg × Nat × Nat) (c : Cfg) :
    (process_config cellOf cp cn filter po g acc c).1.scelDurable =
        acc.1.scelDurable ∧
      (process_config cellOf cp cn filter po g acc c).1.configDurable =
        acc.1.configDurable := by
  unfold process_config
  split
  · exact ⟨rfl, rfl⟩
  · split
    · exact ⟨rfl, rfl⟩
    · exact make_canonical_and_insert_durable cellOf cp cn po acc.1 c

/-- The inner fold over a batch never touches the durable store contents. -/
theorem foldl_process_durable {Scel Cfg : Type} [DecidableEq Scel]
    [DecidableEq Cfg] (cellOf : Cfg → Scel) (cp cn : Cfg → Cfg)
    (filter : Option (Cfg → Bool)) (po g : Bool) :
    ∀ (cfgs : List Cfg) (acc : Stores Scel Cfg × Nat × Nat),
      (cfgs.foldl (process_config cellOf cp cn filter po g) acc).1.scelDurable
          = acc.1.scelDurable ∧
        (cfgs.foldl (process_config cellOf cp cn filter po g)
            acc).1.configDurable = acc.1.configDurable := by
  intro cfgs
  induction cfgs with
  | nil => intro acc; exact ⟨rfl, rfl⟩
  | cons c rest ih =>
    intro acc
    have h1 := process_config_durable cellOf cp cn filter po g acc c
    have h2 := ih (process_config cellOf cp cn filter po g acc c)
    exact ⟨h2.1.trans h1.1, h2.2.trans h1.2⟩

/-- The batch loop never touches the durable store contents. -/
theorem foldl_batches_durable {Scel Cfg ι : Type} [DecidableEq Scel]
    [DecidableEq Cfg] (cellOf : Cfg → Scel) (cp cn : Cfg → Cfg)
    (filter : Option (Cfg → Bool)) (po : Bool)
    (gen : String → ι → List Cfg × Bool) :
    ∀ (batches : List (String × ι))
      (acc : Stores Scel Cfg × List BatchReport),
      (batches.foldl (run_batches_step cellOf cp cn filter po gen)
            acc).1.scelDurable = acc.1.scelDurable ∧
        (batches.foldl (run_batches_step cellOf cp cn filter po gen)
            acc).1.configDurable = acc.1.configDurable := by
  intro batches
  induction batches with
  | nil => intro acc; exact ⟨rfl, rfl⟩
  | cons b rest ih =>
    intro acc
    have h1 := foldl_process_durable cellOf cp cn filter po (gen b.1 b.2).2
      (gen b.1 b.2).1 (acc.1, 0, 0)
    have h2 := ih (run_batches_step cellOf cp cn filter po gen acc b)
    exact ⟨h2.1.trans h1.1, h2.2.trans h1.2⟩

/-- C7: two runs over the same batches, generator factory, filter and initial
stores, differing only in the dry_run flag, produce identical per-batch
reports and identical run-wide counters; the dry run attempts no commit and
leaves the durable state of both stores untouched. -/
theorem dry_run_equivalence {Scel Cfg ι : Type} [DecidableEq Scel]
    [DecidableEq Cfg] (po : Bool) (filter : Option (Cfg → Bool))
    (cellOf : Cfg → Scel) (cp cn : Cfg → Cfg)
    (batches : List (String × ι)) (gen : String → ι → List Cfg × Bool)
    (sOk cOk : Bool) (st0 : Stores Scel Cfg) :
    (enumerate_configurations true po filter cellOf cp cn batches gen sOk cOk
          st0).reports =
        (enumerate_configurations false po filter cellOf cp cn batches gen
          sOk cOk st0).reports ∧
      (enumerate_configurations true po filter cellOf cp cn batches gen sOk
            cOk st0).Ninit =
        (enumerate_configurations false po filter cellOf cp cn batches gen
          sOk cOk st0).Ninit ∧
      (enumerate_configurations true po filter cellOf cp cn batches gen sOk
            cOk st0).Nfinal =
        (enumerate_configurations false po filter cellOf cp cn batches gen
          sOk cOk st0).Nfinal ∧
      (enumerate_configurations true po filter cellOf cp cn batches gen sOk
          cOk st0).events = [] ∧
      (enumerate_configurations true po filter cellOf cp cn batches gen sOk
          cOk st0).stores.scelDurable = st0.scelDurable ∧
      (enumerate_configurations true po filter cellOf cp cn batches gen sOk
          cOk st0).stores.configDurable = st0.configDurable := by
  have hd := foldl_batches_durable cellOf cp cn filter po gen batches
    (st0, [])
  refine ⟨?_, ?_, ?_, rfl, hd.1, hd.2⟩ <;>
    · unfold enumerate_configurations
      cases sOk
      · rfl
      · cases cOk
        · rfl
        · rfl

/-- C7 witness: a concrete run on integer configurations — dry and wet runs
report the same counters, and the dry run leaves the durable store contents
untouched. -/
theorem dry_run_equivalence_witness :
    (enumerate_configurations true false none (fun c : Int => c)
          (fun c : Int => c) (fun c : Int => c) [("a", (0 : Int))]
          (fun _ _ => ([(3 : Int)], false)) true true
          (⟨[], [], [], []⟩ : Stores Int Int)).reports =
        (enumerate_configurations false false none (fun c : Int => c)
          (fun c : Int => c) (fun c : Int => c) [("a", (0 : Int))]
          (fun _ _ => ([(3 : Int)], false)) true true
          (⟨[], [], [], []⟩ : Stores Int Int)).reports ∧
      (enumerate_configurations true false none (fun c : Int => c)
            (fun c : Int => c) (fun c : Int => c) [("a", (0 : Int))]
            (fun _ _ => ([(3 : Int)], false)) true true
            (⟨[], [], [], []⟩ : Stores Int Int)).Ninit =
        (enumerate_configurations false false none (fun c : Int => c)
          (fun c : Int => c) (fun c : Int => c) [("a", (0 : Int))]
          (fun _ _ => ([(3 : Int)], false)) true true
          (⟨[], [], [], []⟩ : Stores Int Int)).Ninit ∧
      (enumerate_configurations true false none (fun c : Int => c)
            (fun c : Int => c) (fun c : Int => c) [("a", (0 : Int))]
            (fun _ _ => ([(3 : Int)], false)) true true
            (⟨[], [], [], []⟩ : Stores Int Int)).Nfinal =
        (enumerate_configurations false false none (fun c : Int => c)
          (fun c : Int => c) (fun c : Int => c) [("a", (0 : Int))]
          (fun _ _ => ([(3 : Int)], false)) true true
          (⟨[], [], [], []⟩ : Stores Int Int)).Nfinal ∧
      (enumerate_configurations true false none (fun c : Int => c)
        (fun c : Int => c) (fun c : Int => c) [("a", (0 : Int))]
        (fun _ _ => ([(3 : Int)], false)) true true
        (⟨[], [], [], []⟩ : Stores Int Int)).events = [] ∧
      (enumerate_configurations true false none (fun c : Int => c)
        (fun c : Int => c) (fun c : Int => c) [("a", (0 : Int))]
        (fun _ _ => ([(3 : Int)], false)) true true
        (⟨[], [], [], []⟩ : Stores Int Int)).stores.scelDurable =
          ([] : List Int) ∧
      (enumerate_configurations true false none (fun c : Int => c)
        (fun c : Int => c) (fun c : Int => c) [("a", (0 : Int))]
        (fun _ _ => ([(3 : Int)], false)) true true
        (⟨[], [], [], []⟩ : Stores Int Int)).stores.configDurable =
          ([] : List Int) :=
  dry_run_equivalence false none (fun c : Int => c) (fun c : Int => c)
    (fun c : Int => c) [("a", (0 : Int))] (fun _ _ => ([(3 : Int)], false))
    true true (⟨[], [], [], []⟩ : Stores Int Int)

/-- C8: in a non-dry run the supercell database is committed strictly before
the configuration database; when the supercell commit fails, the
configuration commit is never attempted and the run aborts; when dry_run is
set, neither commit is ever attempted. -/
theorem commit_order {Scel Cfg ι : Type} [DecidableEq Scel] [DecidableEq Cfg]
    (dry po : Bool) (filter : Option (Cfg → Bool)) (cellOf : Cfg → Scel)
    (cp cn : Cfg → Cfg) (batches : List (String × ι))
    (gen : String → ι → List Cfg × Bool) (sOk cOk : Bool)
    (st0 : Stores Scel Cfg) :
    (dry = true →
      (enumerate_configurations dry po filter cellOf cp cn batches gen sOk
        cOk st0).events = []) ∧
      (dry = false → sOk = false →
        (enumerate_configurations dry po filter cellOf cp cn batches gen sOk
            cOk st0).events = [CommitEvent.commitScel] ∧
          (enumerate_configurations dry po filter cellOf cp cn batches gen
            sOk cOk st0).aborted = true) ∧
      (dry = false → sOk = true →
        (enumerate_configurations dry po filter cellOf cp cn batches gen sOk
          cOk st0).events =
            [CommitEvent.commitScel, CommitEvent.commitConfig]) := by
  refine ⟨?_, ?_, ?_⟩
  · intro h
    subst h
    rfl
  · intro h1 h2
    subst h1
    subst h2
    exact ⟨rfl, rfl⟩
  · intro h1 h2
    subst h1
    subst h2
    cases cOk
    · rfl
    · rfl

/-- C8 witness: concrete runs on integer configurations — a dry run attempts
no commit; a wet run with a failing supercell commit attempts only that
commit and aborts; a wet run with a succeeding supercell commit attempts both
commits in order. -/
theorem commit_order_witness :
    (enumerate_configurations true false none (fun c : Int => c)
        (fun c : Int => c) (fun c : Int => c) [("a", (0 : Int))]
        (fun _ _ => ([(3 : Int)], false)) true true
        (⟨[], [], [], []⟩ : Stores Int Int)).events = [] ∧
      ((enumerate_configurations false false none (fun c : Int => c)
          (fun c : Int => c) (fun c : Int => c) [("a", (0 : Int))]
          (fun _ _ => ([(3 : Int)], false)) false true
          (⟨[], [], [], []⟩ : Stores Int Int)).events =
            [CommitEvent.commitScel] ∧
        (enumerate_configurations false false none (fun c : Int => c)
          (fun c : Int => c) (fun c : Int => c) [("a", (0 : Int))]
          (fun _ _ => ([(3 : Int)], false)) false true
          (⟨[], [], [], []⟩ : Stores Int Int)).aborted = true) ∧
      (enumerate_configurations false false none (fun c : Int => c)
        (fun c : Int => c) (fun c : Int => c) [("a", (0 : Int))]
        (fun _ _ => ([(3 : Int)], false)) true true
        (⟨[], [], [], []⟩ : Stores Int Int)).events =
          [CommitEvent.commitScel, CommitEvent.commitConfig] := by
  refine ⟨?_, ?_, ?_⟩
  · exact (commit_order true false none (fun c : Int => c)
      (fun c : Int => c) (fun c : Int => c) [("a", (0 : Int))]
      (fun _ _ => ([(3 : Int)], false)) true true
      (⟨[], [], [], []⟩ : Stores Int Int)).1 rfl
  · exact (commit_order false false none (fun c : Int => c)
      (fun c : Int => c) (fun c : Int => c) [("a", (0 : Int))]
      (fun _ _ => ([(3 : Int)], false)) false true
      (⟨[], [], [], []⟩ : Stores Int Int)).2.1 rfl rfl
  · exact (commit_order false false none (fun c : Int => c)
      (fun c : Int => c) (fun c : Int => c) [("a", (0 : Int))]
      (fun _ _ => ([(3 : Int)], false)) true true
      (⟨[], [], [], []⟩ : Stores Int Int)).2.2 rfl rfl

/-- Cross-store referential integrity: every entry of the object-store
references a cell registered in the cell-store. -/
def cells_registered {Scel Cfg : Type} (cellOf : Cfg → Scel)
    (st : Stores Scel Cfg) : Prop :=
  ∀ c ∈ st.config, cellOf c ∈ st.scel

/-- Inserting a configuration together with its cell preserves referential
integrity. -/
theorem registered_insert_pair {Scel Cfg : Type} [DecidableEq Scel]
    [DecidableEq Cfg] (cellOf : Cfg → Scel) (st : Stores Scel Cfg) (p : Cfg)
    (h : cells_registered cellOf st) :
    cells_registered cellOf
      { st with scel := dbInsert st.scel (cellOf p),
                config := dbInsert st.config p } := by
  intro c hc
  rcases (mem_dbInsert st.config p c).mp hc with hcm | rfl
  · exact (mem_dbInsert st.scel (cellOf p) (cellOf c)).mpr (Or.inl (h c hcm))
  · exact (mem_dbInsert st.scel (cellOf c) (cellOf c)).mpr (Or.inr rfl)

/-- make_canonical_and_insert preserves referential integrity: every
configuration it inserts has its cell registered in the same step. -/
theorem make_canonical_and_insert_registered {Scel Cfg : Type}
    [DecidableEq Scel] [DecidableEq Cfg] (cellOf : Cfg → Scel)
    (cp cn : Cfg → Cfg) (po : Bool) (st : Stores Scel Cfg) (c0 : Cfg)
    (h : cells_registered cellOf st) :
    cells_registered cellOf
      (make_canonical_and_insert cellOf cp cn po st c0) := by
  unfold make_canonical_and_insert
  dsimp only
  split
  · exact registered_insert_pair cellOf st (cp c0) h
  · split
    · exact registered_insert_pair cellOf st (cp c0) h
    · exact registered_insert_pair cellOf _ (cn c0)
        (registered_insert_pair cellOf st (cp c0) h)

/-- The loop body preserves referential integrity whenever the enumerator is
not guaranteed for direct database insert. -/
theorem process_config_registered {Scel Cfg : Type} [DecidableEq Scel]
    [DecidableEq Cfg] (cellOf : Cfg → Scel) (cp cn : Cfg → Cfg)
    (filter : Option (Cfg → Bool)) (po : Bool)
    (acc : Stores Scel Cfg × Nat × Nat) (c : Cfg)
    (h : cells_registered cellOf acc.1) :
    cells_registered cellOf
      (process_config cellOf cp cn filter po false acc c).1 := by
  unfold process_config
  split
  · exact h
  · exact make_canonical_and_insert_registered cellOf cp cn po acc.1 c h

/-- The inner batch fold preserves referential integrity when the enumerator
is not guaranteed for direct insert. -/
theorem foldl_process_registered {Scel Cfg : Type} [DecidableEq Scel]
    [DecidableEq Cfg] (cellOf : Cfg → Scel) (cp cn : Cfg → Cfg)
    (filter : Option (Cfg → Bool)) (po : Bool) :
    ∀ (cfgs : List Cfg) (acc : Stores Scel Cfg × Nat × Nat),
      cells_registered cellOf acc.1 →
      cells_registered cellOf
        (cfgs.foldl (process_config cellOf cp cn filter po false) acc).1 := by
  intro cfgs
  induction cfgs with
  | nil => intro acc h; exact h
  | cons c rest ih =>
    intro acc h
    exact ih (process_config cellOf cp cn filter po false acc c)
      (process_config_registered cellOf cp cn filter po acc c h)

/-- The batch loop preserves referential integrity when every enumerator
lacks the direct-insert guarantee. -/
theorem foldl_batches_registered {Scel Cfg ι : Type} [DecidableEq Scel]
    [DecidableEq Cfg] (cellOf : Cfg → Scel) (cp cn : Cfg → Cfg)
    (filter : Option (Cfg → Bool)) (po : Bool)
    (gen : String → ι → List Cfg × Bool)
    (hgen : ∀ name input, (gen name input).2 = false) :
    ∀ (batches : List (String × ι))
      (acc : Stores Scel Cfg × List BatchReport),
      cells_registered cellOf acc.1 →
      cells_registered cellOf
        (batches.foldl (run_batches_step cellOf cp cn filter po gen)
          acc).1 := by
  intro batches
  induction batches with
  | nil => intro acc h; exact h
  | cons b rest ih =>
    intro acc h
    apply ih
    have hg := hgen b.1 b.2
    have hstep : cells_registered cellOf
        ((gen b.1 b.2).1.foldl
          (process_config cellOf cp cn filter po (gen b.1 b.2).2)
          (acc.1, 0, 0)).1 := by
      rw [hg]
      exact foldl_process_registered cellOf cp cn filter po (gen b.1 b.2).1
        (acc.1, 0, 0) h
    exact hstep

/-- C9 counterexample: a run whose single enumerator carries the
direct-insert guarantee inserts configuration 7 into the object-store without
registering its cell (cellOf = identity) in the cell-store, so the final
state has an object-store entry referencing an unregistered cell. -/
theorem direct_insert_skips_cell_registration :
    ¬ ∀ c ∈ (enumerate_configurations true false none (fun c : Int => c)
        (fun c : Int => c) (fun c : Int => c) [("b", (0 : Int))]
        (fun _ _ => ([(7 : Int)], true)) true true
        (⟨[], [], [], []⟩ : Stores Int Int)).stores.config,
      (fun c : Int => c) c ∈
        (enumerate_configurations true false none (fun c : Int => c)
          (fun c : Int => c) (fun c : Int => c) [("b", (0 : Int))]
          (fun _ _ => ([(7 : Int)], true)) true true
          (⟨[], [], [], []⟩ : Stores Int Int)).stores.scel := by
  decide

/-- C9 (amended): every insertion taken through the canonicalize branch first
registers the configuration's cell in the cell-store, so a run in which no
enumerator carries the direct-insert guarantee preserves referential
integrity: if initially every object-store entry references a registered
cell, the same holds of the run's final stores.  (The direct-insert branch
inserts without registering the cell, as the counterexample shows.) -/
theorem insert_before_reference_canonical_branch {Scel Cfg ι : Type}
    [DecidableEq Scel] [DecidableEq Cfg] (dry po : Bool)
    (filter : Option (Cfg → Bool)) (cellOf : Cfg → Scel)
    (cp cn : Cfg → Cfg) (batches : List (String × ι))
    (gen : String → ι → List Cfg × Bool) (sOk cOk : Bool)
    (st0 : Stores Scel Cfg)
    (hgen : ∀ name input, (gen name input).2 = false)
    (hinit : ∀ c ∈ st0.config, cellOf c ∈ st0.scel) :
    ∀ c ∈ (enumerate_configurations dry po filter cellOf cp cn batches gen
        sOk cOk st0).stores.config,
      cellOf c ∈ (enumerate_configurations dry po filter cellOf cp cn batches
        gen sOk cOk st0).stores.scel := by
  have hb : cells_registered cellOf
      (batches.foldl (run_batches_step cellOf cp cn filter po gen)
        (st0, [])).1 :=
    foldl_batches_registered cellOf cp cn filter po gen hgen batches
      (st0, []) hinit
  intro c hc
  cases dry
  · cases sOk
    · exact hb c hc
    · cases cOk
      · exact hb c hc
      · exact hb c hc
  · exact hb c hc

/-- C9 amended-theorem witness: a concrete run with a guarantee-free
enumerator producing configuration 5 from empty stores satisfies referential
integrity at the end. -/
theorem insert_before_reference_canonical_branch_witness :
    (fun c : Int => c) 5 ∈
      (enumerate_configurations false false none (fun c : Int => c)
        (fun c : Int => c) (fun c : Int => c) [("b", (0 : Int))]
        (fun _ _ => ([(5 : Int)], false)) true true
        (⟨[], [], [], []⟩ : Stores Int Int)).stores.scel :=
  insert_before_reference_canonical_branch false false none
    (fun c : Int => c) (fun c : Int => c) (fun c : Int => c)
    [("b", (0 : Int))] (fun _ _ => ([(5 : Int)], false)) true true
    (⟨[], [], [], []⟩ : Stores Int Int) (fun _ _ => rfl)
    (fun c hc => absurd hc (List.not_mem_nil c)) 5 (by decide)

end CASM
